import Mathlib

/-!
A shallow embedding of the manifest canonicalization, signing-input and
payload-validation logic of the `pythonsecret` scripts (`create_manifest.py`,
`build_manifest.py`, `validate_payload.py`), together with proofs of the
specified properties.

Python strings are modelled as Lean `String` (or `List Char` for the char-level
helpers), byte strings as `List Nat` with each byte `< 256`, and Python dicts
as association lists in insertion order (CPython dicts preserve insertion
order; assigning to an existing key replaces the value in place).
-/

namespace PySecret

/-! ### Path normalizer (`validate_payload.normalize_relative_path`) -/

/-- `path.replace("\\", "/")` at the character level. -/
def replaceBS (l : List Char) : List Char :=
  l.map (fun c => if c = '\\' then '/' else c)

/-- Python `str.split("/")` semantics: split at every slash, keeping empty
pieces; `"".split("/") == [""]`. -/
def splitSlash : List Char → List (List Char)
  | [] => [[]]
  | c :: cs =>
    match splitSlash cs with
    | [] => [[]]
    | s :: rest => if c = '/' then [] :: s :: rest else (c :: s) :: rest

/-- The loop body of `normalize_relative_path`: skip empty and `"."` parts,
raise on `".."`, keep every other part in order. -/
def collectParts : List (List Char) → Except String (List (List Char))
  | [] => .ok []
  | s :: rest =>
    if s = [] ∨ s = ['.'] then collectParts rest
    else if s = ['.', '.'] then .error "Manifest enthält unzulässigen Pfadanteil '..'."
    else (collectParts rest).map (s :: ·)

/-- `"/".join(parts)` at the character level. -/
def joinSlash (parts : List (List Char)) : List Char :=
  List.intercalate ['/'] parts

/-- `validate_payload.normalize_relative_path`: replace `\` by `/`, split on
`/`, drop empty and `.` segments, reject `..`, rejoin with `/`. -/
def normalize_relative_path (p : String) : Except String String :=
  (collectParts (splitSlash (replaceBS p.data))).map fun parts => ⟨joinSlash parts⟩

/-- The segments that the normalization loop keeps. -/
def keepSeg (s : List Char) : Bool :=
  decide (s ≠ [] ∧ s ≠ ['.'])

theorem collectParts_isError_iff (l : List (List Char)) :
    (collectParts l).isOk = false ↔ ['.', '.'] ∈ l := by
  induction l with
  | nil => simp [collectParts, Except.isOk, Except.toBool]
  | cons s rest ih =>
    by_cases h1 : s = [] ∨ s = ['.']
    · have hs : s ≠ ['.', '.'] := by rcases h1 with h | h <;> simp [h]
      simp only [collectParts, h1, if_true, ih]
      constructor
      · exact fun h => List.mem_cons_of_mem s h
      · intro hm
        rcases List.mem_cons.1 hm with hm | hm
        · exact absurd hm.symm hs
        · exact hm
    · by_cases h2 : s = ['.', '.']
      · simp [collectParts, h1, h2, Except.isOk, Except.toBool]
      · cases hc : collectParts rest with
        | ok parts =>
          simp [collectParts, h1, h2, Except.map, hc, Except.isOk, Except.toBool] at ih ⊢
          exact ⟨fun hmem => h2 hmem.symm, ih⟩
        | error e =>
          simp [collectParts, h1, h2, Except.map, hc, Except.isOk, Except.toBool] at ih ⊢
          exact Or.inr ih

theorem collectParts_ok_of_not_mem (l : List (List Char)) (h : ['.', '.'] ∉ l) :
    collectParts l = .ok (l.filter keepSeg) := by
  induction l with
  | nil => simp [collectParts]
  | cons s rest ih =>
    have hs : s ≠ ['.', '.'] := fun hs => h (hs ▸ List.mem_cons_self s rest)
    have hrest : ['.', '.'] ∉ rest := fun hr => h (List.mem_cons_of_mem s hr)
    by_cases h1 : s = [] ∨ s = ['.']
    · have hk : keepSeg s = false := by
        rcases h1 with h1 | h1 <;> simp [keepSeg, h1]
      simp [collectParts, h1, ih hrest, List.filter, hk]
    · have hk : keepSeg s = true := by
        push_neg at h1
        simp [keepSeg, h1.1, h1.2]
      simp [collectParts, h1, hs, ih hrest, Except.map, List.filter, hk]

theorem collectParts_ok_inv {l parts : List (List Char)}
    (h : collectParts l = .ok parts) :
    ['.', '.'] ∉ l ∧ parts = l.filter keepSeg := by
  have hne : ['.', '.'] ∉ l := by
    intro hmem
    have := (collectParts_isError_iff l).2 hmem
    rw [h] at this
    simp [Except.isOk, Except.toBool] at this
  refine ⟨hne, ?_⟩
  have h2 := collectParts_ok_of_not_mem l hne
  rw [h] at h2
  exact Except.ok.inj h2

theorem splitSlash_cons (c : Char) (cs : List Char) :
    splitSlash (c :: cs) =
      match splitSlash cs with
      | [] => [[]]
      | s :: rest => if c = '/' then [] :: s :: rest else (c :: s) :: rest := rfl

theorem splitSlash_ne_nil (l : List Char) : splitSlash l ≠ [] := by
  cases l with
  | nil => simp [splitSlash]
  | cons c cs =>
    rw [splitSlash_cons]
    cases splitSlash cs with
    | nil => simp
    | cons s rest =>
      by_cases h : c = '/' <;> simp [h]

theorem mem_splitSlash_no_slash {l : List Char} {s : List Char}
    (h : s ∈ splitSlash l) : '/' ∉ s := by
  induction l generalizing s with
  | nil =>
    simp [splitSlash] at h
    simp [h]
  | cons c cs ih =>
    rw [splitSlash_cons] at h
    cases hc : splitSlash cs with
    | nil => exact absurd hc (splitSlash_ne_nil cs)
    | cons t rest =>
      rw [hc] at h
      have hts : '/' ∉ t := ih (by rw [hc]; exact List.mem_cons_self t rest)
      have hrest : ∀ u ∈ rest, '/' ∉ u :=
        fun u hu => ih (by rw [hc]; exact List.mem_cons_of_mem t hu)
      by_cases hcs : c = '/'
      · simp [hcs] at h
        rcases h with h | h | h
        · simp [h]
        · exact h ▸ hts
        · exact hrest s h
      · simp [hcs] at h
        rcases h with h | h
        · subst h
          intro hm
          rcases List.mem_cons.1 hm with hm | hm
          · exact hcs hm.symm
          · exact hts hm
        · exact hrest s h

theorem mem_splitSlash_subset {l : List Char} {s : List Char}
    (h : s ∈ splitSlash l) : ∀ c ∈ s, c ∈ l := by
  induction l generalizing s with
  | nil =>
    simp [splitSlash] at h
    simp [h]
  | cons c cs ih =>
    rw [splitSlash_cons] at h
    cases hc : splitSlash cs with
    | nil => exact absurd hc (splitSlash_ne_nil cs)
    | cons t rest =>
      rw [hc] at h
      have hts : ∀ d ∈ t, d ∈ cs := ih (by rw [hc]; exact List.mem_cons_self t rest)
      have hrest : ∀ u ∈ rest, ∀ d ∈ u, d ∈ cs :=
        fun u hu => ih (by rw [hc]; exact List.mem_cons_of_mem t hu)
      by_cases hcs : c = '/'
      · simp [hcs] at h
        rcases h with h | h | h
        · simp [h]
        · exact fun d hd => List.mem_cons_of_mem c (hts d (h ▸ hd))
        · exact fun d hd => List.mem_cons_of_mem c (hrest s h d hd)
      · simp [hcs] at h
        rcases h with h | h
        · subst h
          intro d hd
          rcases List.mem_cons.1 hd with hd | hd
          · exact hd ▸ List.mem_cons_self c cs
          · exact List.mem_cons_of_mem c (hts d hd)
        · exact fun d hd => List.mem_cons_of_mem c (hrest s h d hd)

theorem replaceBS_no_bs (l : List Char) : '\\' ∉ replaceBS l := by
  intro h
  rcases List.mem_map.1 h with ⟨c, _, hc⟩
  by_cases hcb : c = '\\' <;> simp [hcb] at hc

theorem replaceBS_id {l : List Char} (h : '\\' ∉ l) : replaceBS l = l := by
  induction l with
  | nil => rfl
  | cons c cs ih =>
    have hc : c ≠ '\\' := fun hc => h (hc ▸ List.mem_cons_self c cs)
    have hcs : '\\' ∉ cs := fun hm => h (List.mem_cons_of_mem c hm)
    simp [replaceBS, hc, List.map] at ih ⊢
    exact ih hcs

theorem splitSlash_of_no_slash {s : List Char} (h : '/' ∉ s) : splitSlash s = [s] := by
  induction s with
  | nil => rfl
  | cons c cs ih =>
    have hc : c ≠ '/' := fun hc => h (hc ▸ List.mem_cons_self c cs)
    have hcs : '/' ∉ cs := fun hm => h (List.mem_cons_of_mem c hm)
    simp only [splitSlash, ih hcs, hc, if_false]

theorem joinSlash_single (s : List Char) : joinSlash [s] = s := by
  simp [joinSlash, List.intercalate]

theorem joinSlash_cons₂ (s t : List Char) (rest : List (List Char)) :
    joinSlash (s :: t :: rest) = s ++ '/' :: joinSlash (t :: rest) := by
  simp [joinSlash, List.intercalate, List.intersperse]

theorem splitSlash_append_slash {s : List Char} (t : List Char) (h : '/' ∉ s) :
    splitSlash (s ++ '/' :: t) = s :: splitSlash t := by
  induction s with
  | nil =>
    rw [List.nil_append, splitSlash_cons]
    cases hc : splitSlash t with
    | nil => exact absurd hc (splitSlash_ne_nil t)
    | cons u rest => simp
  | cons c cs ih =>
    have hc : c ≠ '/' := fun hc => h (hc ▸ List.mem_cons_self c cs)
    have hcs : '/' ∉ cs := fun hm => h (List.mem_cons_of_mem c hm)
    rw [List.cons_append, splitSlash_cons, ih hcs]
    simp [hc]

theorem splitSlash_joinSlash {parts : List (List Char)}
    (h : ∀ s ∈ parts, '/' ∉ s) (hne : parts ≠ []) :
    splitSlash (joinSlash parts) = parts := by
  induction parts with
  | nil => exact absurd rfl hne
  | cons s rest ih =>
    cases rest with
    | nil =>
      rw [joinSlash_single]
      exact splitSlash_of_no_slash (h s (List.mem_cons_self s []))
    | cons t rest' =>
      have hs : '/' ∉ s := h s (List.mem_cons_self s (t :: rest'))
      have hrest : ∀ u ∈ t :: rest', '/' ∉ u := fun u hu => h u (List.mem_cons_of_mem s hu)
      rw [joinSlash_cons₂, splitSlash_append_slash _ hs, ih hrest (by simp)]

theorem mem_joinSlash {parts : List (List Char)} {c : Char}
    (h : c ∈ joinSlash parts) : c = '/' ∨ ∃ s ∈ parts, c ∈ s := by
  induction parts with
  | nil => simp [joinSlash, List.intercalate] at h
  | cons s rest ih =>
    cases rest with
    | nil =>
      rw [joinSlash_single] at h
      exact Or.inr ⟨s, List.mem_cons_self s [], h⟩
    | cons t rest' =>
      rw [joinSlash_cons₂] at h
      rcases List.mem_append.1 h with h | h
      · exact Or.inr ⟨s, List.mem_cons_self s (t :: rest'), h⟩
      · rcases List.mem_cons.1 h with h | h
        · exact Or.inl h
        · rcases ih h with h | ⟨u, hu, hc⟩
          · exact Or.inl h
          · exact Or.inr ⟨u, List.mem_cons_of_mem s hu, hc⟩

theorem collectParts_fixed {parts : List (List Char)}
    (h : ∀ s ∈ parts, keepSeg s = true ∧ s ≠ ['.', '.']) :
    collectParts parts = .ok parts := by
  have hne : ['.', '.'] ∉ parts := fun hm => (h _ hm).2 rfl
  rw [collectParts_ok_of_not_mem parts hne, List.filter_eq_self.2 fun s hs => (h s hs).1]

/-- Everything the successful normalizer guarantees about its output: the
output is the slash-join of the kept segments, which are nonempty, not `"."`,
not `".."`, and free of both separators. -/
theorem normalize_ok_inv {p q : String}
    (h : normalize_relative_path p = .ok q) :
    ∃ parts, q.data = joinSlash parts ∧
      parts = (splitSlash (replaceBS p.data)).filter keepSeg ∧
      ∀ s ∈ parts, keepSeg s = true ∧ s ≠ ['.', '.'] ∧ '/' ∉ s ∧ '\\' ∉ s := by
  unfold normalize_relative_path at h
  cases hc : collectParts (splitSlash (replaceBS p.data)) with
  | error e => rw [hc] at h; simp [Except.map] at h
  | ok parts =>
    rw [hc] at h
    simp only [Except.map] at h
    have hq : q = ⟨joinSlash parts⟩ := (Except.ok.inj h).symm
    obtain ⟨hnmem, hparts⟩ := collectParts_ok_inv hc
    refine ⟨parts, by rw [hq], hparts, fun s hs => ?_⟩
    have hs' : s ∈ (splitSlash (replaceBS p.data)).filter keepSeg := hparts ▸ hs
    have hmem : s ∈ splitSlash (replaceBS p.data) := List.mem_of_mem_filter hs'
    have hkeep : keepSeg s = true := List.of_mem_filter hs'
    refine ⟨hkeep, fun hdd => hnmem (hdd ▸ hmem), mem_splitSlash_no_slash hmem, fun hbs => ?_⟩
    exact replaceBS_no_bs (p.data) (mem_splitSlash_subset hmem '\\' hbs)

/-- Idempotence of the normalizer on its successful outputs (shared helper). -/
theorem normalize_fixed_output {p q : String}
    (h : normalize_relative_path p = .ok q) :
    normalize_relative_path q = .ok q := by
  obtain ⟨parts, hdata, _, hall⟩ := normalize_ok_inv h
  have hnobs : '\\' ∉ q.data := by
    rw [hdata]
    intro hm
    rcases mem_joinSlash hm with hm | ⟨s, hs, hc⟩
    · exact absurd hm.symm (by decide)
    · exact (hall s hs).2.2.2 hc
  have hrepl : replaceBS q.data = q.data := replaceBS_id hnobs
  cases hp : parts with
  | nil =>
    have hq : q.data = [] := by rw [hdata, hp]; rfl
    obtain ⟨qd⟩ := q
    have hq2 : qd = [] := hq
    subst hq2
    rfl
  | cons s rest =>
    have hsplit : splitSlash q.data = parts := by
      rw [hdata]
      exact splitSlash_joinSlash (fun s hs => (hall s hs).2.2.1) (by rw [hp]; simp)
    have hcoll : collectParts parts = .ok parts :=
      collectParts_fixed fun s hs => ⟨(hall s hs).1, (hall s hs).2.1⟩
    unfold normalize_relative_path
    rw [hrepl, hsplit, hcoll]
    simp only [Except.map]
    congr 1
    obtain ⟨qd⟩ := q
    have hq2 : qd = joinSlash parts := hdata
    rw [hq2]

/-! ### Canonical serializer (`canonical_json` in `create_manifest.py` and
`validate_payload.py`; both copies are textually identical) -/

/-- Python string comparison: lexicographic over Unicode code points.
`json.dumps(..., sort_keys=True)` orders object keys with this relation. -/
def pyStrLe : List Char → List Char → Bool
  | [], _ => true
  | _ :: _, [] => false
  | a :: as, b :: bs =>
    if a.toNat < b.toNat then true
    else if b.toNat < a.toNat then false
    else pyStrLe as bs

theorem char_eq_of_toNat_eq {a b : Char} (h : a.toNat = b.toNat) : a = b :=
  Char.ext (UInt32.ext h)

theorem pyStrLe_total (a b : List Char) : pyStrLe a b = true ∨ pyStrLe b a = true := by
  induction a generalizing b with
  | nil => exact Or.inl rfl
  | cons x xs ih =>
    cases b with
    | nil => exact Or.inr rfl
    | cons y ys =>
      by_cases h1 : x.toNat < y.toNat
      · left; simp [pyStrLe, h1]
      · by_cases h2 : y.toNat < x.toNat
        · right; simp [pyStrLe, h2]
        · rcases ih ys with h | h
          · left; simp [pyStrLe, h1, h2, h]
          · right; simp [pyStrLe, h1, h2, h]

theorem pyStrLe_trans :
    ∀ (a b c : List Char), pyStrLe a b = true → pyStrLe b c = true → pyStrLe a c = true := by
  intro a
  induction a with
  | nil => intro b c _ _; rfl
  | cons x xs ih =>
    intro b c hab hbc
    cases b with
    | nil => simp [pyStrLe] at hab
    | cons y ys =>
      cases c with
      | nil => simp [pyStrLe] at hbc
      | cons z zs =>
        simp only [pyStrLe] at hab hbc ⊢
        by_cases hxy : x.toNat < y.toNat
        · by_cases hyz : y.toNat < z.toNat
          · simp [show x.toNat < z.toNat by omega]
          · by_cases hzy : z.toNat < y.toNat
            · simp [hyz, hzy] at hbc
            · simp [show x.toNat < z.toNat by omega]
        · by_cases hyx : y.toNat < x.toNat
          · simp [hxy, hyx] at hab
          · have hxy' : x.toNat = y.toNat := by omega
            by_cases hyz : y.toNat < z.toNat
            · simp [show x.toNat < z.toNat by omega]
            · by_cases hzy : z.toNat < y.toNat
              · simp [hyz, hzy] at hbc
              · simp only [hxy, hyx, if_false] at hab
                simp only [hyz, hzy, if_false] at hbc
                simp [show ¬x.toNat < z.toNat by omega, show ¬z.toNat < x.toNat by omega,
                  ih ys zs hab hbc]

theorem pyStrLe_antisymm :
    ∀ {a b : List Char}, pyStrLe a b = true → pyStrLe b a = true → a = b := by
  intro a
  induction a with
  | nil =>
    intro b _ hba
    cases b with
    | nil => rfl
    | cons y ys => simp [pyStrLe] at hba
  | cons x xs ih =>
    intro b hab hba
    cases b with
    | nil => simp [pyStrLe] at hab
    | cons y ys =>
      simp only [pyStrLe] at hab hba
      by_cases hxy : x.toNat < y.toNat
      · simp [show ¬y.toNat < x.toNat by omega, hxy] at hba
      · by_cases hyx : y.toNat < x.toNat
        · simp [hxy, hyx] at hab
        · simp only [hxy, hyx, if_false] at hab hba
          have hx : x = y := char_eq_of_toNat_eq (by omega)
          rw [hx, ih hab hba]

/-- The key order relation used for `sort_keys=True` on association lists. -/
def keyLe {α : Type} (a b : String × α) : Prop :=
  pyStrLe a.1.data b.1.data = true

instance {α : Type} : DecidableRel (@keyLe α) := fun a b =>
  inferInstanceAs (Decidable (pyStrLe a.1.data b.1.data = true))

instance {α : Type} : IsTotal (String × α) keyLe :=
  ⟨fun a b => pyStrLe_total a.1.data b.1.data⟩

instance {α : Type} : IsTrans (String × α) keyLe :=
  ⟨fun a b c => pyStrLe_trans a.1.data b.1.data c.1.data⟩

/-- `sorted(d.items())` by key: the deterministic, stable key sort that
`json.dumps(..., sort_keys=True)` applies to every object. -/
def sortByKey {α : Type} (l : List (String × α)) : List (String × α) :=
  List.insertionSort keyLe l

/-- Insertion-order independence of the key sort: two association lists with
the same entries and no duplicate keys sort identically. -/
theorem sortByKey_eq_of_perm {α : Type} {l₁ l₂ : List (String × α)}
    (hp : l₁.Perm l₂) (hnd : (l₁.map Prod.fst).Nodup) :
    sortByKey l₁ = sortByKey l₂ := by
  have hperm : (sortByKey l₁).Perm (sortByKey l₂) :=
    ((List.perm_insertionSort keyLe l₁).trans hp).trans
      (List.perm_insertionSort keyLe l₂).symm
  have hs₁ : List.Sorted keyLe (sortByKey l₁) := List.sorted_insertionSort keyLe l₁
  have hs₂ : List.Sorted keyLe (sortByKey l₂) := List.sorted_insertionSort keyLe l₂
  have hnd₁ : List.Pairwise (fun a b : String × α => a.1 ≠ b.1) (sortByKey l₁) := by
    have h1 : ((sortByKey l₁).map Prod.fst).Nodup :=
      ((List.perm_insertionSort keyLe l₁).map Prod.fst).nodup_iff.2 hnd
    exact List.pairwise_map.1 h1
  have hnd₂ : List.Pairwise (fun a b : String × α => a.1 ≠ b.1) (sortByKey l₂) := by
    have h2 : ((sortByKey l₂).map Prod.fst).Nodup :=
      (((List.perm_insertionSort keyLe l₂).map Prod.fst).trans
        ((hp.symm).map Prod.fst)).nodup_iff.2 hnd
    exact List.pairwise_map.1 h2
  have hstrict₁ : List.Pairwise (fun a b : String × α => keyLe a b ∧ a.1 ≠ b.1) (sortByKey l₁) :=
    hs₁.and hnd₁
  have hstrict₂ : List.Pairwise (fun a b : String × α => keyLe a b ∧ a.1 ≠ b.1) (sortByKey l₂) :=
    hs₂.and hnd₂
  haveI : IsAntisymm (String × α) (fun a b => keyLe a b ∧ a.1 ≠ b.1) := by
    constructor
    intro a b hab hba
    exact absurd (String.ext (pyStrLe_antisymm hab.1 hba.1)) hab.2
  exact List.eq_of_perm_of_sorted hperm hstrict₁ hstrict₂

/-- Lowercase hexadecimal digits. -/
def hexDigits : List Char :=
  "0123456789abcdef".data

def hexDigitChar (d : Nat) : Char :=
  hexDigits.getD d '0'

/-- Escape one character the way `json.dumps` does with `ensure_ascii=False`
(CPython `json/encoder.py`, `py_encode_basestring`): only `"`, `\` and control
characters below U+0020 are escaped; everything else — in particular every
non-ASCII character — is emitted literally. -/
def jesc (c : Char) : List Char :=
  if c = '"' then ['\\', '"']
  else if c = '\\' then ['\\', '\\']
  else if c = '\x08' then ['\\', 'b']
  else if c = '\x0c' then ['\\', 'f']
  else if c = '\n' then ['\\', 'n']
  else if c = '\r' then ['\\', 'r']
  else if c = '\t' then ['\\', 't']
  else if c.toNat < 0x20 then
    ['\\', 'u', '0', '0', hexDigitChar (c.toNat / 16), hexDigitChar (c.toNat % 16)]
  else [c]

/-- A JSON string token: `"` + escaped characters + `"`. -/
def jstr (s : String) : List Char :=
  '"' :: (s.data.map jesc).flatten ++ ['"']

/-- Join token lists with the item separator `","` (from
`separators=(",", ":")`, so no incidental whitespace). -/
def joinComma (l : List (List Char)) : List Char :=
  List.intercalate [','] l

/-- The JSON values appearing in the manifest documents this program
serializes: strings, and flat string→string objects. -/
inductive FieldVal where
  | fstr : String → FieldVal
  | fmap : List (String × String) → FieldVal
deriving DecidableEq

/-- Serialization of a string→string object under `sort_keys=True` and
`separators=(",", ":")`: entries sorted by key, `","` between entries, `":"`
between key and value, no whitespace anywhere. -/
def dumpStrMap (files : List (String × String)) : List Char :=
  '{' :: joinComma ((sortByKey files).map fun kv => jstr kv.1 ++ ':' :: jstr kv.2) ++ ['}']

def dumpField : FieldVal → List Char
  | .fstr s => jstr s
  | .fmap m => dumpStrMap m

/-- `json.dumps(doc, sort_keys=True, separators=(",", ":"), ensure_ascii=False)`
for the flat documents this program serializes (objects whose values are
strings or string→string maps). -/
def dumpsDoc (doc : List (String × FieldVal)) : List Char :=
  '{' :: joinComma ((sortByKey doc).map fun kv => jstr kv.1 ++ ':' :: dumpField kv.2) ++ ['}']

/-- UTF-8 encoding of one code point. -/
def utf8Char (c : Char) : List Nat :=
  let n := c.toNat
  if n < 0x80 then [n]
  else if n < 0x800 then
    [0xC0 ||| (n >>> 6), 0x80 ||| (n &&& 0x3F)]
  else if n < 0x10000 then
    [0xE0 ||| (n >>> 12), 0x80 ||| ((n >>> 6) &&& 0x3F), 0x80 ||| (n &&& 0x3F)]
  else
    [0xF0 ||| (n >>> 18), 0x80 ||| ((n >>> 12) &&& 0x3F),
      0x80 ||| ((n >>> 6) &&& 0x3F), 0x80 ||| (n &&& 0x3F)]

/-- `.encode("utf-8")`. -/
def utf8Encode (l : List Char) : List Nat :=
  (l.map utf8Char).flatten

/-- `canonical_json`: canonical JSON bytes of a document
(`json.dumps(..., sort_keys=True, separators=(",", ":"), ensure_ascii=False)
.encode("utf-8")`). -/
def canonical_json (doc : List (String × FieldVal)) : List Nat :=
  utf8Encode (dumpsDoc doc)

/-- The unsigned manifest value `{"version": version, "files": files}`, in the
insertion order both `create_manifest.main` and
`validate_payload.verify_signature` build it. -/
def unsignedManifestDoc (version : String) (files : List (String × String)) :
    List (String × FieldVal) :=
  [("version", .fstr version), ("files", .fmap files)]

/-- The byte sequence `verify_signature` hands to `public_key.verify` as the
signed message: `canonical_json({"version": version, "files": files})`.  The
decoded `signature` bytes are passed to `verify` separately and play no part
in building this payload. -/
def verifySignaturePayload (version : String) (files : List (String × String))
    (_signature : List Nat) : List Nat :=
  canonical_json (unsignedManifestDoc version files)

theorem sortByKey_unsignedManifestDoc (version : String) (files : List (String × String)) :
    sortByKey (unsignedManifestDoc version files) =
      [("files", .fmap files), ("version", .fstr version)] := by
  show List.insertionSort keyLe _ = _
  rw [unsignedManifestDoc]
  rw [List.insertionSort, List.insertionSort, List.insertionSort, List.orderedInsert,
    List.orderedInsert]
  have h : ¬ keyLe (("version", FieldVal.fstr version) : String × FieldVal)
      ("files", FieldVal.fmap files) := by
    show ¬ pyStrLe "version".data "files".data = true
    decide
  rw [if_neg h, List.orderedInsert]

/-! ### Content hasher (`hashlib.sha256` as used by the three hashing sites) -/

/-- `2 ^ 32`, the word modulus of SHA-256. -/
def M32 : Nat := 4294967296

def rotr32 (k x : Nat) : Nat := ((x >>> k) ||| (x <<< (32 - k))) % M32

def bsig0 (x : Nat) : Nat := (rotr32 2 x) ^^^ (rotr32 13 x) ^^^ (rotr32 22 x)

def bsig1 (x : Nat) : Nat := (rotr32 6 x) ^^^ (rotr32 11 x) ^^^ (rotr32 25 x)

def ssig0 (x : Nat) : Nat := (rotr32 7 x) ^^^ (rotr32 18 x) ^^^ (x >>> 3)

def ssig1 (x : Nat) : Nat := (rotr32 17 x) ^^^ (rotr32 19 x) ^^^ (x >>> 10)

def chFn (e f g : Nat) : Nat := (e &&& f) ^^^ ((e ^^^ 0xFFFFFFFF) &&& g)

def majFn (a b c : Nat) : Nat := (a &&& b) ^^^ (a &&& c) ^^^ (b &&& c)

/-- The 64 SHA-256 round constants (FIPS 180-4 §4.2.2, in decimal). -/
def shaK : List Nat :=
  [1116352408, 1899447441, 3049323471, 3921009573,
   961987163, 1508970993, 2453635748, 2870763221,
   3624381080, 310598401, 607225278, 1426881987,
   1925078388, 2162078206, 2614888103, 3248222580,
   3835390401, 4022224774, 264347078, 604807628,
   770255983, 1249150122, 1555081692, 1996064986,
   2554220882, 2821834349, 2952996808, 3210313671,
   3336571891, 3584528711, 113926993, 338241895,
   666307205, 773529912, 1294757372, 1396182291,
   1695183700, 1986661051, 2177026350, 2456956037,
   2730485921, 2820302411, 3259730800, 3345764771,
   3516065817, 3600352804, 4094571909, 275423344,
   430227734, 506948616, 659060556, 883997877,
   958139571, 1322822218, 1537002063, 1747873779,
   1955562222, 2024104815, 2227730452, 2361852424,
   2428436474, 2756734187, 3204031479, 3329325298]

/-- Eight 32-bit registers (used both for the chaining value and for the
working registers of the compression loop). -/
structure Hash8 where
  a : Nat
  b : Nat
  c : Nat
  d : Nat
  e : Nat
  f : Nat
  g : Nat
  h : Nat
deriving DecidableEq

def initH : Hash8 :=
  ⟨1779033703, 3144134277, 1013904242, 2773480762,
   1359893119, 2600822924, 528734635, 1541459225⟩

/-- Extend a 16-word message schedule by `n` further words. -/
def extendSchedule (w : List Nat) : Nat → List Nat
  | 0 => w
  | n + 1 =>
    let prev := extendSchedule w n
    prev ++ [(ssig1 (prev.getD (prev.length - 2) 0) + prev.getD (prev.length - 7) 0 +
      ssig0 (prev.getD (prev.length - 15) 0) + prev.getD (prev.length - 16) 0) % M32]

/-- One SHA-256 round on the working registers. -/
def shaRound (r : Hash8) (kw : Nat × Nat) : Hash8 :=
  let t1 := (r.h + bsig1 r.e + chFn r.e r.f r.g + kw.1 + kw.2) % M32
  let t2 := (bsig0 r.a + majFn r.a r.b r.c) % M32
  ⟨(t1 + t2) % M32, r.a, r.b, r.c, (r.d + t1) % M32, r.e, r.f, r.g⟩

/-- Compress one 16-word block into the chaining value. -/
def compress (hv : Hash8) (block : List Nat) : Hash8 :=
  let w := extendSchedule block 48
  let r := (shaK.zip w).foldl shaRound hv
  ⟨(hv.a + r.a) % M32, (hv.b + r.b) % M32, (hv.c + r.c) % M32, (hv.d + r.d) % M32,
   (hv.e + r.e) % M32, (hv.f + r.f) % M32, (hv.g + r.g) % M32, (hv.h + r.h) % M32⟩

/-- Split a list into chunks of `n` elements (last one possibly shorter),
with explicit fuel so the definition is structural and kernel-computable. -/
def chunksOfAux {α : Type} (n : Nat) : Nat → List α → List (List α)
  | 0, _ => []
  | _, [] => []
  | fuel + 1, l => l.take n :: chunksOfAux n fuel (l.drop n)

/-- The sequence of chunks an `f.read(8192)` loop sees for a stream of
`bs` bytes. -/
def chunks8192 (bs : List Nat) : List (List Nat) :=
  chunksOfAux 8192 bs.length bs

/-- `k` big-endian bytes of a number. -/
def beBytes : Nat → Nat → List Nat
  | 0, _ => []
  | k + 1, v => beBytes k (v / 256) ++ [v % 256]

/-- SHA-256 padding: `0x80`, zeros to 56 mod 64, then the 8-byte big-endian
bit length. -/
def padMessage (msg : List Nat) : List Nat :=
  msg ++ 0x80 :: List.replicate ((64 + 55 - msg.length % 64) % 64) 0 ++
    beBytes 8 (msg.length * 8)

/-- Decode a 64-byte block into 16 big-endian 32-bit words. -/
def wordsOfBlock (block : List Nat) : List Nat :=
  (chunksOfAux 4 block.length block).map fun w => w.foldl (fun acc b => acc * 256 + b) 0

/-- One-shot SHA-256 of a byte sequence, as 32 bytes. -/
def sha256 (msg : List Nat) : List Nat :=
  let padded := padMessage msg
  let final := ((chunksOfAux 64 padded.length padded).map wordsOfBlock).foldl compress initH
  beBytes 4 final.a ++ beBytes 4 final.b ++ beBytes 4 final.c ++ beBytes 4 final.d ++
    beBytes 4 final.e ++ beBytes 4 final.f ++ beBytes 4 final.g ++ beBytes 4 final.h

/-- Lowercase hexadecimal rendering of a byte sequence. -/
def toHex (bs : List Nat) : List Char :=
  (bs.map fun b => [hexDigitChar (b / 16 % 16), hexDigitChar (b % 16)]).flatten

/-- A `hashlib.sha256()` object.  Python's `hashlib` documents
`m.update(a); m.update(b)` as equivalent to `m.update(a + b)`, so the
observable state of a context is the concatenation of all bytes fed to it
so far. -/
structure Sha256Ctx where
  buf : List Nat
deriving DecidableEq

def Sha256Ctx.init : Sha256Ctx := ⟨[]⟩

/-- `m.update(bs)`. -/
def Sha256Ctx.update (ctx : Sha256Ctx) (bs : List Nat) : Sha256Ctx := ⟨ctx.buf ++ bs⟩

/-- `m.hexdigest()`. -/
def Sha256Ctx.hexdigest (ctx : Sha256Ctx) : String := ⟨toHex (sha256 ctx.buf)⟩

/-- `build_manifest.sha256_file`: `h.update(f.read())`, one whole-file update. -/
def buildManifestSha256File (content : List Nat) : String :=
  (Sha256Ctx.init.update content).hexdigest

/-- `create_manifest.sha256_file`:
`while chunk := f.read(8192): hasher.update(chunk)`. -/
def createManifestSha256File (content : List Nat) : String :=
  ((chunks8192 content).foldl Sha256Ctx.update Sha256Ctx.init).hexdigest

/-- The per-entry hashing loop of `validate_payload.hash_zip_members`:
`for chunk in iter(lambda: file_handle.read(8192), b""): digest.update(chunk)`. -/
def zipEntryDigest (content : List Nat) : String :=
  ((chunks8192 content).foldl Sha256Ctx.update Sha256Ctx.init).hexdigest

theorem chunksOfAux_flatten {α : Type} (n : Nat) (hn : 0 < n) :
    ∀ (fuel : Nat) (l : List α), l.length ≤ fuel → (chunksOfAux n fuel l).flatten = l := by
  intro fuel
  induction fuel with
  | zero =>
    intro l hl
    have : l = [] := List.length_eq_zero.1 (Nat.le_zero.1 hl)
    subst this
    rfl
  | succ fuel ih =>
    intro l hl
    cases l with
    | nil => rfl
    | cons x xs =>
      show ((x :: xs).take n :: chunksOfAux n fuel ((x :: xs).drop n)).flatten = x :: xs
      have hlen : ((x :: xs).drop n).length ≤ fuel := by
        rw [List.length_drop]
        simp only [List.length_cons] at hl ⊢
        omega
      rw [List.flatten_cons, ih ((x :: xs).drop n) hlen, List.take_append_drop]

theorem foldl_update_buf (cs : List (List Nat)) :
    ∀ ctx : Sha256Ctx, (cs.foldl Sha256Ctx.update ctx).buf = ctx.buf ++ cs.flatten := by
  induction cs with
  | nil => intro ctx; simp
  | cons c rest ih =>
    intro ctx
    rw [List.foldl_cons, ih, List.flatten_cons]
    simp [Sha256Ctx.update]

theorem chunks8192_flatten (bs : List Nat) : (chunks8192 bs).flatten = bs :=
  chunksOfAux_flatten 8192 (by omega) bs.length bs le_rfl

theorem beBytes_lt (k v : Nat) : ∀ b ∈ beBytes k v, b < 256 := by
  induction k generalizing v with
  | zero => intro b hb; simp [beBytes] at hb
  | succ k ih =>
    intro b hb
    rw [beBytes] at hb
    rcases List.mem_append.1 hb with hb | hb
    · exact ih (v / 256) b hb
    · rw [List.mem_singleton.1 hb]; omega

theorem beBytes_length (k v : Nat) : (beBytes k v).length = k := by
  induction k generalizing v with
  | zero => rfl
  | succ k ih => rw [beBytes]; simp [ih]

theorem sha256_mem_lt (msg : List Nat) : ∀ b ∈ sha256 msg, b < 256 := by
  intro b hb
  unfold sha256 at hb
  simp only [List.append_assoc, List.mem_append] at hb
  rcases hb with hb | hb | hb | hb | hb | hb | hb | hb <;> exact beBytes_lt _ _ b hb

theorem sha256_length (msg : List Nat) : (sha256 msg).length = 32 := by
  unfold sha256
  simp [beBytes_length]

theorem hexDigitChar_mem (d : Nat) (hd : d < 16) : hexDigitChar d ∈ hexDigits := by
  have h : ∀ i : Fin 16, hexDigitChar i.val ∈ hexDigits := by decide
  exact h ⟨d, hd⟩

theorem toHex_mem {bs : List Nat} {c : Char} (hc : c ∈ toHex bs) : c ∈ hexDigits := by
  unfold toHex at hc
  rcases List.mem_flatten.1 hc with ⟨pair, hpair, hcp⟩
  rcases List.mem_map.1 hpair with ⟨b, _, hb⟩
  subst hb
  rcases List.mem_cons.1 hcp with h | h
  · exact h ▸ hexDigitChar_mem _ (Nat.mod_lt _ (by omega))
  · rw [List.mem_singleton.1 h]
    exact hexDigitChar_mem _ (Nat.mod_lt _ (by omega))

theorem toHex_length (bs : List Nat) : (toHex bs).length = 2 * bs.length := by
  induction bs with
  | nil => rfl
  | cons b rest ih =>
    unfold toHex at ih ⊢
    simp at ih ⊢
    omega

/-! ### Manifest parsing (`validate_payload.load_manifest`) -/

/-- The Python values `json.loads` can produce, as far as this program
inspects them.  JSON object keys are always strings, so dict keys are
`String` by construction (the `isinstance(key, str)` check in
`load_manifest` can therefore never fire on a parsed document). -/
inductive PyVal where
  | pnull : PyVal
  | pbool : Bool → PyVal
  | pnum : Int → PyVal
  | pstr : String → PyVal
  | plist : List PyVal → PyVal
  | pdict : List (String × PyVal) → PyVal

/-- The characters Python's `str.strip()` removes: CPython's
`Py_UNICODE_ISSPACE` set, i.e. U+0009–U+000D and U+001C–U+0020 (which
includes the file/group/record/unit separators U+001C–U+001F), plus the
Unicode spaces U+0085, U+00A0, U+1680, U+2000–U+200A, U+2028, U+2029,
U+202F, U+205F and U+3000. -/
def pyIsSpace (c : Char) : Bool :=
  decide ((9 ≤ c.toNat ∧ c.toNat ≤ 13) ∨ (28 ≤ c.toNat ∧ c.toNat ≤ 32) ∨
    c.toNat = 0x85 ∨ c.toNat = 0xA0 ∨ c.toNat = 0x1680 ∨
    (0x2000 ≤ c.toNat ∧ c.toNat ≤ 0x200A) ∨ c.toNat = 0x2028 ∨ c.toNat = 0x2029 ∨
    c.toNat = 0x202F ∨ c.toNat = 0x205F ∨ c.toNat = 0x3000)

/-- Python `str.strip()`. -/
def pyStrip (s : String) : String :=
  ⟨((s.data.dropWhile pyIsSpace).reverse.dropWhile pyIsSpace).reverse⟩

/-- Value of one base64-alphabet character. -/
def b64Val (c : Char) : Option Nat :=
  if 65 ≤ c.toNat ∧ c.toNat ≤ 90 then some (c.toNat - 65)
  else if 97 ≤ c.toNat ∧ c.toNat ≤ 122 then some (c.toNat - 97 + 26)
  else if 48 ≤ c.toNat ∧ c.toNat ≤ 57 then some (c.toNat - 48 + 52)
  else if c = '+' then some 62
  else if c = '/' then some 63
  else none

/-- `base64.b64decode(s, validate=True)`: every character must come from the
base64 alphabet (plus `=` padding), the length must be a multiple of four,
and `=` may appear only as the last one or two characters. -/
def b64DecodeAux : List Char → Except String (List Nat)
  | [] => .ok []
  | [c1, c2, c3, c4] =>
    match b64Val c1, b64Val c2 with
    | some v1, some v2 =>
      if c3 = '=' then
        if c4 = '=' then .ok [(v1 * 4 + v2 / 16) % 256]
        else .error "Invalid base64-encoded string"
      else
        match b64Val c3 with
        | some v3 =>
          if c4 = '=' then .ok [(v1 * 4 + v2 / 16) % 256, ((v2 % 16) * 16 + v3 / 4) % 256]
          else
            match b64Val c4 with
            | some v4 =>
              .ok [(v1 * 4 + v2 / 16) % 256, ((v2 % 16) * 16 + v3 / 4) % 256,
                ((v3 % 4) * 64 + v4) % 256]
            | none => .error "Invalid base64-encoded string"
        | none => .error "Invalid base64-encoded string"
    | _, _ => .error "Invalid base64-encoded string"
  | c1 :: c2 :: c3 :: c4 :: rest =>
    match b64Val c1, b64Val c2, b64Val c3, b64Val c4 with
    | some v1, some v2, some v3, some v4 =>
      (b64DecodeAux rest).map
        (fun tail => [(v1 * 4 + v2 / 16) % 256, ((v2 % 16) * 16 + v3 / 4) % 256,
          ((v3 % 4) * 64 + v4) % 256] ++ tail)
    | _, _, _, _ => .error "Invalid base64-encoded string"
  | _ => .error "Invalid padding"

def b64decode (s : String) : Except String (List Nat) :=
  b64DecodeAux s.data

/-- The `for key, value in data["files"].items()` loop of `load_manifest`:
every value must be a string (keys are strings by construction). -/
def extractFiles : List (String × PyVal) → Except String (List (String × String))
  | [] => .ok []
  | (k, PyVal.pstr v) :: rest => (extractFiles rest).map ((k, v) :: ·)
  | _ :: _ => .error "Dateiliste muss String-Schlüssel und -Werte enthalten."

/-- `validate_payload.load_manifest`, applied to the parsed document
(a JSON object, given by its entries). -/
def load_manifest (data : List (String × PyVal)) :
    Except String (String × List (String × String) × List Nat) :=
  match List.lookup "version" data with
  | some (PyVal.pstr v) =>
    if pyStrip v = "" then .error "Manifest hat kein gültiges Versionsfeld."
    else
      match List.lookup "files" data with
      | some (PyVal.pdict fentries) =>
        match List.lookup "signature" data with
        | some (PyVal.pstr sigStr) =>
          match b64decode sigStr with
          | .error e => .error ("Signatur ist kein gültiges Base64: " ++ e)
          | .ok signature =>
            match extractFiles fentries with
            | .error e => .error e
            | .ok files => .ok (v, files, signature)
        | some _ => .error "Manifest enthält keine Signatur."
        | none => .error "Manifest enthält keine Signatur."
      | some _ => .error "Manifest enthält keine gültige Dateiliste."
      | none => .error "Manifest enthält keine gültige Dateiliste."
  | some _ => .error "Manifest hat kein gültiges Versionsfeld."
  | none => .error "Manifest hat kein gültiges Versionsfeld."

/-- Whether the `version` check of `load_manifest` passes. -/
def versionFieldOk (data : List (String × PyVal)) : Bool :=
  match List.lookup "version" data with
  | some (PyVal.pstr v) => !(pyStrip v == "")
  | _ => false

/-- Whether the `files` checks of `load_manifest` pass. -/
def filesFieldOk (data : List (String × PyVal)) : Bool :=
  match List.lookup "files" data with
  | some (PyVal.pdict fentries) =>
    fentries.all fun kv => match kv.2 with | PyVal.pstr _ => true | _ => false
  | _ => false

/-- Whether the `signature` checks of `load_manifest` pass. -/
def signatureFieldOk (data : List (String × PyVal)) : Bool :=
  match List.lookup "signature" data with
  | some (PyVal.pstr s) => (b64decode s).isOk
  | _ => false

theorem extractFiles_ok_iff (fentries : List (String × PyVal)) :
    (extractFiles fentries).isOk =
      fentries.all fun kv => match kv.2 with | PyVal.pstr _ => true | _ => false := by
  induction fentries with
  | nil => rfl
  | cons kv rest ih =>
    obtain ⟨k, v⟩ := kv
    cases v with
    | pstr s =>
      cases hr : extractFiles rest with
      | ok fl => simp [extractFiles, hr, Except.map, Except.isOk, Except.toBool, List.all_cons] at ih ⊢; exact ih
      | error e => simp [extractFiles, hr, Except.map, Except.isOk, Except.toBool, List.all_cons] at ih ⊢; exact ih
    | pnull => simp [extractFiles, Except.isOk, Except.toBool, List.all_cons]
    | pbool b => simp [extractFiles, Except.isOk, Except.toBool, List.all_cons]
    | pnum n => simp [extractFiles, Except.isOk, Except.toBool, List.all_cons]
    | plist l => simp [extractFiles, Except.isOk, Except.toBool, List.all_cons]
    | pdict d => simp [extractFiles, Except.isOk, Except.toBool, List.all_cons]

/-- `extractFiles` hands the string entries back unchanged. -/
theorem extractFiles_map (fl : List (String × String)) :
    extractFiles (fl.map fun kv => (kv.1, PyVal.pstr kv.2)) = .ok fl := by
  induction fl with
  | nil => rfl
  | cons kv rest ih => simp [extractFiles, ih, Except.map]

/-- The success path of `load_manifest` (shared helper). -/
theorem load_manifest_ok {data : List (String × PyVal)} {v : String}
    {fl : List (String × String)} {sigStr : String} {sg : List Nat}
    (hv : List.lookup "version" data = some (PyVal.pstr v)) (hstrip : pyStrip v ≠ "")
    (hf : List.lookup "files" data =
      some (PyVal.pdict (fl.map fun kv => (kv.1, PyVal.pstr kv.2))))
    (hs : List.lookup "signature" data = some (PyVal.pstr sigStr))
    (hb : b64decode sigStr = .ok sg) :
    load_manifest data = .ok (v, fl, sg) := by
  simp only [load_manifest, hv, hf, hs, hb, extractFiles_map, if_neg hstrip]

/-! ### Archive hashing and payload validation (`validate_payload.py`) -/

/-- The distinct failure outcomes of `validate_payload` (Python raises
`ValueError` with a distinct message at each of these sites). -/
inductive VErr where
  | loadError : String → VErr
  | signatureError : VErr
  | pathError : String → VErr
  | duplicateEntry : String → VErr
  | missingFiles : List String → VErr
  | hashMismatch : List String → VErr
  | extraFiles : List String → VErr
deriving DecidableEq

/-- One entry of `archive.infolist()`: its name, its directory flag, and the
bytes of its stream. -/
structure ZipEntry where
  filename : String
  is_dir : Bool
  content : List Nat

/-- The entry loop of `hash_zip_members`, with the accumulated dict. -/
def hashZipGo : List ZipEntry → List (String × String) → Except VErr (List (String × String))
  | [], acc => .ok acc
  | e :: rest, acc =>
    if e.is_dir then hashZipGo rest acc
    else
      match normalize_relative_path e.filename with
      | .error msg => .error (VErr.pathError msg)
      | .ok normalized =>
        if (List.lookup normalized acc).isSome then
          .error (VErr.duplicateEntry ("Doppelte Datei im ZIP: " ++ normalized))
        else hashZipGo rest (acc ++ [(normalized, zipEntryDigest e.content)])

/-- `validate_payload.hash_zip_members`. -/
def hash_zip_members (entries : List ZipEntry) : Except VErr (List (String × String)) :=
  hashZipGo entries []

/-- CPython dict assignment `d[k] = v`: replace the value in place if the key
exists, else append a new entry. -/
def dinsert {α : Type} (k : String) (v : α) : List (String × α) → List (String × α)
  | [] => [(k, v)]
  | (k', v') :: rest => if k' = k then (k, v) :: rest else (k', v') :: dinsert k v rest

/-- Python `str.lower()` (ASCII case folding suffices for hex digests). -/
def lowerStr (s : String) : String :=
  ⟨s.data.map Char.toLower⟩

/-- The manifest-normalization loop of `validate_payload`:
`normalized_manifest_files[normalize_relative_path(rel)] = expected.lower()`. -/
def normManifestGo : List (String × String) → List (String × String) →
    Except VErr (List (String × String))
  | [], acc => .ok acc
  | (rel, expected) :: rest, acc =>
    match normalize_relative_path rel with
    | .error msg => .error (VErr.pathError msg)
    | .ok normalized => normManifestGo rest (dinsert normalized (lowerStr expected) acc)

def normalizeManifestFiles (files : List (String × String)) :
    Except VErr (List (String × String)) :=
  normManifestGo files []

/-- Manifest paths absent from the archive map (`missing`), in manifest
order. -/
def missingList (mf ar : List (String × String)) : List String :=
  (mf.filter fun kv => (List.lookup kv.1 ar).isNone).map Prod.fst

/-- Manifest paths present in the archive with a different digest
(`hash_mismatches`), in manifest order. -/
def mismatchList (mf ar : List (String × String)) : List String :=
  (mf.filter fun kv =>
    match List.lookup kv.1 ar with
    | some d => lowerStr d != kv.2
    | none => false).map Prod.fst

/-- Python string order, at `String` level. -/
def strPyLe (a b : String) : Prop :=
  pyStrLe a.data b.data = true

instance : DecidableRel strPyLe := fun a b =>
  inferInstanceAs (Decidable (pyStrLe a.data b.data = true))

instance : IsTotal String strPyLe :=
  ⟨fun a b => pyStrLe_total a.data b.data⟩

instance : IsTrans String strPyLe :=
  ⟨fun a b c => pyStrLe_trans a.data b.data c.data⟩

/-- `sorted(set(archive_hashes) - set(normalized_manifest_files))`: archive
keys (unique by construction) not declared in the manifest, sorted. -/
def extraList (mf ar : List (String × String)) : List String :=
  List.insertionSort strPyLe ((ar.map Prod.fst).filter fun k => (List.lookup k mf).isNone)

/-- `validate_payload.validate_payload`.  The outcome of the external RSA
primitive (`public_key.verify`) is supplied as the oracle `sigOk`; the ZIP is
given by its entry list.  On success the returned list is the extra-file
warning surfaced to the caller (empty when the archive matches exactly). -/
def validate_payload (manifest : List (String × PyVal)) (zipEntries : List ZipEntry)
    (sigOk : Bool) (fail_on_extra : Bool) : Except VErr (List String) :=
  match load_manifest manifest with
  | .error e => .error (VErr.loadError e)
  | .ok (_version, files, _signature) =>
    if !sigOk then .error VErr.signatureError
    else
      match hash_zip_members zipEntries with
      | .error e => .error e
      | .ok archive_hashes =>
        match normalizeManifestFiles files with
        | .error e => .error e
        | .ok nmf =>
          let missing := missingList nmf archive_hashes
          let mismatches := mismatchList nmf archive_hashes
          let extra := extraList nmf archive_hashes
          if missing ≠ [] then .error (VErr.missingFiles missing)
          else if mismatches ≠ [] then .error (VErr.hashMismatch mismatches)
          else if fail_on_extra ∧ extra ≠ [] then .error (VErr.extraFiles extra)
          else .ok extra

/-! ### Manifest builder enumeration (`create_manifest.collect_hashes`) -/

/-- What one filesystem object yielded by `payload_dir.rglob("*")` can be. -/
inductive FSKind where
  | regularFile : FSKind
  | directory : FSKind
  | symlinkToFile : FSKind
  | symlinkToDir : FSKind
  | brokenSymlink : FSKind
deriving DecidableEq

/-- One `rglob` result: its POSIX relative path
(`file_path.relative_to(payload_dir).as_posix()`), what it is, and the bytes
of the (resolved) file when there is one. -/
structure FSEntry where
  relPath : String
  kind : FSKind
  content : List Nat

/-- `pathlib.Path.is_file()`: true for a regular file and — because it
follows symlinks — for a symlink whose target is a regular file. -/
def FSEntry.isFile (e : FSEntry) : Bool :=
  decide (e.kind = FSKind.regularFile ∨ e.kind = FSKind.symlinkToFile)

/-- `create_manifest.collect_hashes`: hash every walked object for which
`is_file()` holds into a relative-path → digest map. -/
def collect_hashes (walk : List FSEntry) : List (String × String) :=
  (walk.filter FSEntry.isFile).map fun e => (e.relPath, createManifestSha256File e.content)

/-! ### General helper lemmas -/

theorem isOk_map {ε α β : Type} (f : α → β) (x : Except ε α) :
    (x.map f).isOk = x.isOk := by
  cases x <;> rfl

theorem lookup_isSome_iff {α : Type} (k : String) (l : List (String × α)) :
    (List.lookup k l).isSome = true ↔ k ∈ l.map Prod.fst := by
  induction l with
  | nil => simp
  | cons kv rest ih =>
    obtain ⟨k', v⟩ := kv
    by_cases h : k = k'
    · subst h; simp [List.lookup]
    · have hb : (k == k') = false := beq_eq_false_iff_ne.2 h
      simp [List.lookup, hb, ih, h]

theorem keepSeg_iff (s : List Char) : keepSeg s = true ↔ (s ≠ [] ∧ s ≠ ['.']) := by
  simp [keepSeg]

theorem dumpsDoc_unsignedManifestDoc (version : String) (files : List (String × String)) :
    dumpsDoc (unsignedManifestDoc version files) =
      '{' :: (jstr "files" ++ ':' :: dumpStrMap files) ++
        ',' :: (jstr "version" ++ ':' :: jstr version) ++ ['}'] := by
  rw [dumpsDoc, sortByKey_unsignedManifestDoc]
  simp [joinComma, List.intercalate, List.intersperse, dumpField]

/-! ### The claims -/

/-- C1: the canonical serializer is a pure, deterministic function of the
logical `{version, files}` value — byte-identical output for any insertion
order of the `files` entries — with map entries ordered lexicographically by
Unicode code point, no whitespace between tokens (the only separators are
`","` and `":"`), and characters above ASCII emitted literally rather than as
`\uXXXX` escapes. -/
theorem claim_C1 :
    (∀ (version : String) (files₁ files₂ : List (String × String)),
      files₁.Perm files₂ → (files₁.map Prod.fst).Nodup →
      canonical_json (unsignedManifestDoc version files₁) =
        canonical_json (unsignedManifestDoc version files₂)) ∧
    (∀ files : List (String × String), List.Sorted keyLe (sortByKey files)) ∧
    (∀ (version : String) (files : List (String × String)),
      dumpsDoc (unsignedManifestDoc version files) =
        '{' :: (jstr "files" ++ ':' :: dumpStrMap files) ++
          ',' :: (jstr "version" ++ ':' :: jstr version) ++ ['}']) ∧
    (∀ c : Char, 128 ≤ c.toNat → jesc c = [c]) := by
  refine ⟨?_, ?_, dumpsDoc_unsignedManifestDoc, ?_⟩
  · intro version files₁ files₂ hp hnd
    have hsort : sortByKey files₁ = sortByKey files₂ := sortByKey_eq_of_perm hp hnd
    unfold canonical_json
    rw [dumpsDoc_unsignedManifestDoc, dumpsDoc_unsignedManifestDoc]
    unfold dumpStrMap
    rw [hsort]
  · intro files
    exact List.sorted_insertionSort keyLe files
  · intro c hc
    have h1 : c ≠ '"' := by rintro rfl; revert hc; decide
    have h2 : c ≠ '\\' := by rintro rfl; revert hc; decide
    have h3 : c ≠ '\x08' := by rintro rfl; revert hc; decide
    have h4 : c ≠ '\x0c' := by rintro rfl; revert hc; decide
    have h5 : c ≠ '\n' := by rintro rfl; revert hc; decide
    have h6 : c ≠ '\r' := by rintro rfl; revert hc; decide
    have h7 : c ≠ '\t' := by rintro rfl; revert hc; decide
    have h8 : ¬ c.toNat < 0x20 := by omega
    simp only [jesc, if_neg h1, if_neg h2, if_neg h3, if_neg h4, if_neg h5, if_neg h6,
      if_neg h7, if_neg h8]

/-- Witness for C1 at concrete inputs: the two insertion orders of a two-entry
map serialize to the same bytes, and a concrete non-ASCII character (é,
U+00E9) is not escaped. -/
theorem claim_C1_witness :
    canonical_json (unsignedManifestDoc "1.0" [("b.txt", "00"), ("a.txt", "11")]) =
      canonical_json (unsignedManifestDoc "1.0" [("a.txt", "11"), ("b.txt", "00")]) ∧
    jesc 'é' = ['é'] :=
  ⟨claim_C1.1 "1.0" [("b.txt", "00"), ("a.txt", "11")] [("a.txt", "11"), ("b.txt", "00")]
      (List.Perm.swap ("a.txt", "11") ("b.txt", "00") []) (by decide),
    claim_C1.2.2.2 'é' (by decide)⟩

/-- C3: the byte sequence `verify_signature` checks the RSA signature against
is exactly the canonical serialization of the `{version, files}` substructure:
it is built from the parsed `version` and `files` values alone (the decoded
signature plays no part in it), and the serialized document carries exactly
the keys `version` and `files` — no `signature` field and no formatting from
the stored manifest text. -/
theorem claim_C3 (version : String) (files : List (String × String)) (signature : List Nat) :
    verifySignaturePayload version files signature =
      canonical_json (unsignedManifestDoc version files) ∧
    (∀ signature' : List Nat,
      verifySignaturePayload version files signature' =
        verifySignaturePayload version files signature) ∧
    (unsignedManifestDoc version files).map Prod.fst = ["version", "files"] ∧
    "signature" ∉ (unsignedManifestDoc version files).map Prod.fst ∧
    dumpsDoc (unsignedManifestDoc version files) =
      '{' :: (jstr "files" ++ ':' :: dumpStrMap files) ++
        ',' :: (jstr "version" ++ ':' :: jstr version) ++ ['}'] :=
  ⟨rfl, fun _ => rfl, rfl,
    by rw [show (unsignedManifestDoc version files).map Prod.fst = ["version", "files"] from rfl]
       decide,
    dumpsDoc_unsignedManifestDoc version files⟩

/-- C4: `normalize_relative_path` replaces `\` with `/`, drops empty and `.`
segments, fails exactly when a `..` segment remains (never resolving it), and
otherwise rejoins the surviving segments with `/`; `"a/./b"`, `"a\\b"` and
`"a//b"` normalize to `"a/b"` while `"../../evil.bin"` is rejected. -/
theorem claim_C4 (p : String) :
    ((normalize_relative_path p).isOk = false ↔
      ['.', '.'] ∈ splitSlash (replaceBS p.data)) ∧
    (['.', '.'] ∉ splitSlash (replaceBS p.data) →
      normalize_relative_path p =
        .ok ⟨joinSlash ((splitSlash (replaceBS p.data)).filter keepSeg)⟩) ∧
    normalize_relative_path "a/./b" = .ok "a/b" ∧
    normalize_relative_path "a\\b" = .ok "a/b" ∧
    normalize_relative_path "a//b" = .ok "a/b" ∧
    (normalize_relative_path "../../evil.bin").isOk = false := by
  refine ⟨?_, ?_, rfl, rfl, rfl, rfl⟩
  · rw [normalize_relative_path, isOk_map]
    exact collectParts_isError_iff _
  · intro h
    rw [normalize_relative_path, collectParts_ok_of_not_mem _ h]
    rfl

/-- Witness for C4 at a concrete input: a path with no `..` segment
normalizes to the join of its kept segments. -/
theorem claim_C4_witness :
    normalize_relative_path "x/./y" =
      .ok ⟨joinSlash ((splitSlash (replaceBS "x/./y".data)).filter keepSeg)⟩ :=
  (claim_C4 "x/./y").2.1 (by decide)

/-- C10: the normalizer is idempotent on its successful outputs, and such an
output contains no backslash, no `.` or `..` segment, and (unless it is the
empty path) no empty segment. -/
theorem claim_C10 (p q : String) (h : normalize_relative_path p = .ok q) :
    normalize_relative_path q = .ok q ∧
    '\\' ∉ q.data ∧
    (∀ s ∈ splitSlash q.data, s ≠ ['.'] ∧ s ≠ ['.', '.']) ∧
    (q ≠ "" → ∀ s ∈ splitSlash q.data, s ≠ []) := by
  obtain ⟨parts, hdata, hparts, hall⟩ := normalize_ok_inv h
  refine ⟨normalize_fixed_output h, ?_, ?_, ?_⟩
  · rw [hdata]
    intro hm
    rcases mem_joinSlash hm with hm | ⟨s, hs, hc⟩
    · exact absurd hm (by decide)
    · exact (hall s hs).2.2.2 hc
  · intro s hs
    cases hp : parts with
    | nil =>
      rw [hdata, hp] at hs
      have hs0 : s = [] := by
        have : splitSlash (joinSlash []) = [[]] := rfl
        rw [this] at hs
        simpa using hs
      subst hs0
      exact ⟨by decide, by decide⟩
    | cons t rest =>
      have hsplit : splitSlash q.data = parts := by
        rw [hdata]
        exact splitSlash_joinSlash (fun u hu => (hall u hu).2.2.1) (by rw [hp]; simp)
      rw [hsplit] at hs
      have hk := (keepSeg_iff s).1 (hall s hs).1
      exact ⟨hk.2, (hall s hs).2.1⟩
  · intro hq s hs
    cases hp : parts with
    | nil =>
      exfalso
      apply hq
      have : q.data = [] := by rw [hdata, hp]; rfl
      obtain ⟨qd⟩ := q
      have hq2 : qd = [] := this
      subst hq2
      rfl
    | cons t rest =>
      have hsplit : splitSlash q.data = parts := by
        rw [hdata]
        exact splitSlash_joinSlash (fun u hu => (hall u hu).2.2.1) (by rw [hp]; simp)
      rw [hsplit] at hs
      exact ((keepSeg_iff s).1 (hall s hs).1).1

/-- Witness for C10 at a concrete input: normalizing `"a\\.\\b//c"` gives
`"a/b/c"`, on which the normalizer is a fixed point. -/
theorem claim_C10_witness :
    normalize_relative_path "a/b/c" = .ok "a/b/c" ∧ '\\' ∉ "a/b/c".data :=
  ⟨(claim_C10 "a\\.\\b//c" "a/b/c" rfl).1,
    (claim_C10 "a\\.\\b//c" "a/b/c" rfl).2.1⟩

/-- C7 counterexample: `Path.is_file()` follows symlinks, so `collect_hashes`
does insert a `(path, digest)` pair for a symlink that resolves to a regular
file — the claim that no symlink ever contributes an entry is false. -/
theorem claim_C7_counterexample :
    (FSEntry.mk "lib/plugin.so" FSKind.symlinkToFile []).kind ≠ FSKind.regularFile ∧
    collect_hashes [FSEntry.mk "lib/plugin.so" FSKind.symlinkToFile []] =
      [("lib/plugin.so", createManifestSha256File [])] :=
  ⟨by decide, rfl⟩

/-- C7 (amended): `collect_hashes` includes exactly the `rglob` results for
which `is_file()` holds — every regular file *and every symlink resolving to a
regular file* contributes exactly one entry keyed by its `/`-separated
relative path, while directory entries, symlinks to directories and broken
symlinks contribute nothing. -/
theorem claim_C7 (walk : List FSEntry) (path : String) :
    ((collect_hashes walk).filter fun kv => kv.1 == path).length =
      (walk.filter fun e => FSEntry.isFile e && (e.relPath == path)).length ∧
    (∀ e : FSEntry, FSEntry.isFile e = true ↔
      (e.kind = FSKind.regularFile ∨ e.kind = FSKind.symlinkToFile)) := by
  constructor
  · unfold collect_hashes
    rw [List.filter_map, List.length_map, List.filter_filter]
    congr 1
    apply List.filter_congr
    intro e _
    simp only [Function.comp]
    exact Bool.and_comm _ _
  · intro e
    simp [FSEntry.isFile]

/-- C8: the three content hashers are equivalent — the whole-file
`sha256_file` of `build_manifest.py`, the 8 KiB-chunked `sha256_file` of
`create_manifest.py`, and the chunked per-entry loop of `hash_zip_members`
produce the same digest for every byte sequence, and that digest is a
64-character lowercase-hexadecimal string. -/
theorem claim_C8 (content : List Nat) :
    buildManifestSha256File content = createManifestSha256File content ∧
    zipEntryDigest content = createManifestSha256File content ∧
    (buildManifestSha256File content).length = 64 ∧
    (buildManifestSha256File content).data.all (fun c => hexDigits.contains c) = true := by
  have hbuf : ((chunks8192 content).foldl Sha256Ctx.update Sha256Ctx.init).buf = content := by
    rw [foldl_update_buf, chunks8192_flatten]
    rfl
  have h1 : buildManifestSha256File content = createManifestSha256File content := by
    unfold buildManifestSha256File createManifestSha256File
    unfold Sha256Ctx.hexdigest
    rw [hbuf]
    rfl
  refine ⟨h1, rfl, ?_, ?_⟩
  · show (toHex (sha256 (Sha256Ctx.init.update content).buf)).length = 64
    rw [toHex_length, sha256_length]
  · rw [List.all_eq_true]
    intro c hc
    have hc' : c ∈ toHex (sha256 (Sha256Ctx.init.update content).buf) := hc
    exact List.elem_iff.2 (toHex_mem hc')

/-- The normalized names of a list of archive entries, in order (helper for
stating C5). -/
def normalizeNames : List ZipEntry → Except String (List String)
  | [] => .ok []
  | e :: rest =>
    match normalize_relative_path e.filename with
    | .error msg => .error msg
    | .ok n => (normalizeNames rest).map (n :: ·)

theorem hashZipGo_skip_dirs (entries : List ZipEntry) :
    ∀ acc, hashZipGo entries acc = hashZipGo (entries.filter fun e => !e.is_dir) acc := by
  induction entries with
  | nil => intro acc; rfl
  | cons e rest ih =>
    intro acc
    by_cases hd : e.is_dir = true
    · have hf : (e :: rest).filter (fun x => !x.is_dir) = rest.filter fun x => !x.is_dir := by
        simp [List.filter_cons, hd]
      have heq : hashZipGo (e :: rest) acc = hashZipGo rest acc := by
        simp only [hashZipGo]
        rw [if_pos hd]
      rw [hf, heq]
      exact ih acc
    · have hf : (e :: rest).filter (fun x => !x.is_dir) = e :: rest.filter fun x => !x.is_dir := by
        simp [List.filter_cons, hd]
      rw [hf]
      simp only [hashZipGo]
      rw [if_neg hd, if_neg hd]
      cases hn : normalize_relative_path e.filename with
      | error msg => rfl
      | ok n =>
        by_cases hl : (List.lookup n acc).isSome = true
        · simp [hl]
        · simp [hl, ih]

theorem hashZipGo_spec (entries : List ZipEntry) :
    ∀ (acc : List (String × String)) (ns : List String),
      normalizeNames (entries.filter fun e => !e.is_dir) = .ok ns →
      (acc.map Prod.fst).Nodup →
      (if ((acc.map Prod.fst) ++ ns).Nodup
       then hashZipGo entries acc =
         .ok (acc ++ ns.zip ((entries.filter fun e => !e.is_dir).map fun e => zipEntryDigest e.content))
       else ∃ p, hashZipGo entries acc = .error (VErr.duplicateEntry p)) := by
  induction entries with
  | nil =>
    intro acc ns hns hnd
    have h0 : ns = [] := (Except.ok.inj hns).symm
    subst h0
    rw [if_pos (by simpa using hnd)]
    simp [hashZipGo]
  | cons e rest ih =>
    intro acc ns hns hnd
    by_cases hd : e.is_dir = true
    · have hf : (e :: rest).filter (fun x => !x.is_dir) = rest.filter fun x => !x.is_dir := by
        simp [List.filter_cons, hd]
      rw [hf] at hns
      have heq : hashZipGo (e :: rest) acc = hashZipGo rest acc := by
        simp only [hashZipGo]
        rw [if_pos hd]
      rw [hf, heq]
      exact ih acc ns hns hnd
    · have hf : (e :: rest).filter (fun x => !x.is_dir) = e :: rest.filter fun x => !x.is_dir := by
        simp [List.filter_cons, hd]
      rw [hf] at hns ⊢
      cases hn : normalize_relative_path e.filename with
      | error msg => simp [normalizeNames, hn] at hns
      | ok n =>
        simp only [normalizeNames, hn] at hns
        cases hrest : normalizeNames (rest.filter fun x => !x.is_dir) with
        | error msg => rw [hrest] at hns; simp [Except.map] at hns
        | ok ns' =>
          rw [hrest] at hns
          simp only [Except.map] at hns
          have hns2 : ns = n :: ns' := (Except.ok.inj hns).symm
          subst hns2
          have hunf : hashZipGo (e :: rest) acc =
              (if (List.lookup n acc).isSome = true then
                .error (VErr.duplicateEntry ("Doppelte Datei im ZIP: " ++ n))
              else hashZipGo rest (acc ++ [(n, zipEntryDigest e.content)])) := by
            simp only [hashZipGo]
            rw [if_neg hd, hn]
          by_cases hl : (List.lookup n acc).isSome = true
          · have hmem : n ∈ acc.map Prod.fst := (lookup_isSome_iff n acc).1 hl
            have hcond : ¬ ((acc.map Prod.fst) ++ n :: ns').Nodup := by
              intro hnodup
              exact (List.nodup_append.1 hnodup).2.2 hmem (List.mem_cons_self n ns')
            rw [if_neg hcond]
            exact ⟨_, by rw [hunf, if_pos hl]⟩
          · have hlmem : n ∉ acc.map Prod.fst := fun hm => hl ((lookup_isSome_iff n acc).2 hm)
            have hacc' : ((acc ++ [(n, zipEntryDigest e.content)]).map Prod.fst) =
                acc.map Prod.fst ++ [n] := by simp
            have hnd' : ((acc ++ [(n, zipEntryDigest e.content)]).map Prod.fst).Nodup := by
              rw [hacc']
              refine List.Nodup.append hnd (List.nodup_singleton n) ?_
              intro a ha hb
              rw [List.mem_singleton.1 hb] at ha
              exact hlmem ha
            have hih := ih (acc ++ [(n, zipEntryDigest e.content)]) ns' hrest hnd'
            rw [hacc'] at hih
            have happ : (acc.map Prod.fst ++ [n]) ++ ns' = acc.map Prod.fst ++ n :: ns' := by simp
            rw [happ] at hih
            by_cases hc : ((acc.map Prod.fst) ++ n :: ns').Nodup
            · rw [if_pos hc] at hih ⊢
              rw [hunf, if_neg hl, hih]
              congr 1
              simp [List.zip_cons_cons]
            · rw [if_neg hc] at hih ⊢
              obtain ⟨p, hp⟩ := hih
              exact ⟨p, by rw [hunf, if_neg hl, hp]⟩

/-- C5: `hash_zip_members` skips every directory entry; when two distinct
non-directory entries normalize to the same path it raises a duplicate-entry
error instead of returning a map, and when no such collision exists it
returns the map from each normalized entry name to the SHA-256 digest of that
entry's bytes. -/
theorem claim_C5 (entries : List ZipEntry) (ns : List String)
    (hns : normalizeNames (entries.filter fun e => !e.is_dir) = .ok ns) :
    hash_zip_members entries = hash_zip_members (entries.filter fun e => !e.is_dir) ∧
    (if ns.Nodup
     then hash_zip_members entries =
       .ok (ns.zip ((entries.filter fun e => !e.is_dir).map fun e => zipEntryDigest e.content))
     else ∃ p, hash_zip_members entries = .error (VErr.duplicateEntry p)) := by
  constructor
  · exact hashZipGo_skip_dirs entries []
  · have h := hashZipGo_spec entries [] ns hns (by simp)
    simp only [List.map_nil, List.nil_append] at h
    exact h

/-- A ZIP with a directory entry and two file entries whose names normalize
to the same path. -/
def dupZipExample : List ZipEntry :=
  [⟨"docs/", true, []⟩, ⟨"a//b.txt", false, []⟩, ⟨"a\\b.txt", false, [7]⟩]

/-- Witness for C5 at a concrete archive: the two colliding file entries make
`hash_zip_members` fail with a duplicate-entry error. -/
theorem claim_C5_witness :
    ∃ p, hash_zip_members dupZipExample = .error (VErr.duplicateEntry p) := by
  have h := (claim_C5 dupZipExample ["a/b.txt", "a/b.txt"] rfl).2
  rw [if_neg (by decide)] at h
  exact h

/-- C6 counterexample: a manifest whose `version` is the non-empty,
whitespace-only string `" "` satisfies every success condition the claim
lists (version present and a non-empty string, `files` a string→string
mapping, `signature` a string holding valid base64), yet `load_manifest`
raises, because the code tests `data["version"].strip()`. -/
theorem claim_C6_counterexample :
    List.lookup "version"
        [("version", PyVal.pstr " "), ("files", PyVal.pdict []),
          ("signature", PyVal.pstr "")] = some (PyVal.pstr " ") ∧
    (" " : String) ≠ "" ∧
    List.lookup "files"
        [("version", PyVal.pstr " "), ("files", PyVal.pdict []),
          ("signature", PyVal.pstr "")] = some (PyVal.pdict []) ∧
    List.lookup "signature"
        [("version", PyVal.pstr " "), ("files", PyVal.pdict []),
          ("signature", PyVal.pstr "")] = some (PyVal.pstr "") ∧
    b64decode "" = .ok [] ∧
    (load_manifest
        [("version", PyVal.pstr " "), ("files", PyVal.pdict []),
          ("signature", PyVal.pstr "")]).isOk = false :=
  ⟨rfl, by decide, rfl, rfl, rfl, rfl⟩

/-- C6 (amended): `load_manifest` raises a structural or encoding error iff
the `version` field is missing, not a string, or empty *after stripping
whitespace* (so whitespace-only versions are also rejected); or `files` is
missing, not a mapping, or has a non-string value (keys of a parsed JSON
object are always strings); or `signature` is missing, not a string, or not
valid base64.  On any other input it returns the version, the files map and
the base64-decoded signature bytes unchanged. -/
theorem claim_C6 (data : List (String × PyVal)) :
    ((load_manifest data).isOk =
      (versionFieldOk data && filesFieldOk data && signatureFieldOk data)) ∧
    (∀ (v : String) (fl : List (String × String)) (sigStr : String) (sg : List Nat),
      List.lookup "version" data = some (PyVal.pstr v) → pyStrip v ≠ "" →
      List.lookup "files" data =
        some (PyVal.pdict (fl.map fun kv => (kv.1, PyVal.pstr kv.2))) →
      List.lookup "signature" data = some (PyVal.pstr sigStr) →
      b64decode sigStr = .ok sg →
      load_manifest data = .ok (v, fl, sg)) := by
  constructor
  · unfold load_manifest versionFieldOk filesFieldOk signatureFieldOk
    cases hv : List.lookup "version" data with
    | none => rfl
    | some pv =>
      cases pv with
      | pstr v =>
        dsimp only
        by_cases hstrip : pyStrip v = ""
        · rw [if_pos hstrip]
          simp [hstrip, Except.isOk, Except.toBool]
        · rw [if_neg hstrip]
          have hbv : (!(pyStrip v == "")) = true := by
            simp [hstrip]
          rw [hbv, Bool.true_and]
          cases hf : List.lookup "files" data with
          | none => rfl
          | some pf =>
            cases pf with
            | pdict fentries =>
              dsimp only
              cases hs : List.lookup "signature" data with
              | none => simp [Except.isOk, Except.toBool]
              | some ps =>
                cases ps with
                | pstr sigStr =>
                  dsimp only
                  cases hb : b64decode sigStr with
                  | error e => simp [hb, Except.isOk, Except.toBool]
                  | ok sg =>
                    cases he : extractFiles fentries with
                    | error e =>
                      simp [hb, he, ← extractFiles_ok_iff, Except.isOk, Except.toBool]
                    | ok files =>
                      simp [hb, he, ← extractFiles_ok_iff, Except.isOk, Except.toBool]
                | pnull => simp [Except.isOk, Except.toBool]
                | pbool b => simp [Except.isOk, Except.toBool]
                | pnum n => simp [Except.isOk, Except.toBool]
                | plist l => simp [Except.isOk, Except.toBool]
                | pdict d => simp [Except.isOk, Except.toBool]
            | pnull => rfl
            | pbool b => rfl
            | pnum n => rfl
            | pstr s => rfl
            | plist l => rfl
      | pnull => rfl
      | pbool b => rfl
      | pnum n => rfl
      | plist l => rfl
      | pdict d => rfl
  · intro v fl sigStr sg hv hstrip hf hs hb
    exact load_manifest_ok hv hstrip hf hs hb

/-- Witness for C6 at a concrete well-formed manifest document. -/
theorem claim_C6_witness :
    load_manifest
        [("version", PyVal.pstr "1.0"),
          ("files", PyVal.pdict [("a", PyVal.pstr "00")]),
          ("signature", PyVal.pstr "")] = .ok ("1.0", [("a", "00")], []) :=
  (claim_C6 _).2 "1.0" [("a", "00")] "" [] rfl (by decide) rfl rfl rfl

/-- C2: once the manifest is loaded, the archive hashed and the manifest
paths normalized, `validate_payload` reports success iff signature
verification passed, no manifest path is missing from the archive, no digest
differs, and the archive has no extra paths or strict mode is off.  Non-empty
`missing`/`mismatched` fail as integrity violations regardless of the flag;
non-empty `extra` fails as a policy violation exactly in strict mode, and in
non-strict mode the extra paths are returned to the caller as the warning
list. -/
theorem claim_C2 (manifest : List (String × PyVal)) (zipEntries : List ZipEntry)
    (sigOk fail_on_extra : Bool)
    (v : String) (files : List (String × String)) (sg : List Nat)
    (archive nmf : List (String × String))
    (hload : load_manifest manifest = .ok (v, files, sg))
    (hhz : hash_zip_members zipEntries = .ok archive)
    (hnm : normalizeManifestFiles files = .ok nmf) :
    ((validate_payload manifest zipEntries sigOk fail_on_extra).isOk = true ↔
      (sigOk = true ∧ missingList nmf archive = [] ∧ mismatchList nmf archive = [] ∧
        (extraList nmf archive = [] ∨ fail_on_extra = false))) ∧
    (sigOk = false →
      validate_payload manifest zipEntries sigOk fail_on_extra = .error VErr.signatureError) ∧
    (sigOk = true → missingList nmf archive ≠ [] →
      validate_payload manifest zipEntries sigOk fail_on_extra =
        .error (VErr.missingFiles (missingList nmf archive))) ∧
    (sigOk = true → missingList nmf archive = [] → mismatchList nmf archive ≠ [] →
      validate_payload manifest zipEntries sigOk fail_on_extra =
        .error (VErr.hashMismatch (mismatchList nmf archive))) ∧
    (sigOk = true → missingList nmf archive = [] → mismatchList nmf archive = [] →
      fail_on_extra = true → extraList nmf archive ≠ [] →
      validate_payload manifest zipEntries sigOk fail_on_extra =
        .error (VErr.extraFiles (extraList nmf archive))) ∧
    (sigOk = true → missingList nmf archive = [] → mismatchList nmf archive = [] →
      fail_on_extra = false →
      validate_payload manifest zipEntries sigOk fail_on_extra =
        .ok (extraList nmf archive)) := by
  have hval : validate_payload manifest zipEntries sigOk fail_on_extra =
      (if (!sigOk) = true then .error VErr.signatureError
       else
        if missingList nmf archive ≠ [] then
          .error (VErr.missingFiles (missingList nmf archive))
        else if mismatchList nmf archive ≠ [] then
          .error (VErr.hashMismatch (mismatchList nmf archive))
        else if fail_on_extra = true ∧ extraList nmf archive ≠ [] then
          .error (VErr.extraFiles (extraList nmf archive))
        else .ok (extraList nmf archive)) := by
    unfold validate_payload
    simp only [hload, hhz, hnm]
  refine ⟨?_, ?_, ?_, ?_, ?_, ?_⟩
  · rw [hval]
    cases sigOk with
    | false => simp [Except.isOk, Except.toBool]
    | true =>
      simp only [Bool.not_true, Bool.false_eq_true, if_false]
      by_cases h1 : missingList nmf archive = []
      · by_cases h2 : mismatchList nmf archive = []
        · by_cases h3 : fail_on_extra = true ∧ extraList nmf archive ≠ []
          · obtain ⟨h3a, h3b⟩ := h3
            simp [h1, h2, h3a, h3b, Except.isOk, Except.toBool]
          · rw [if_neg (by simp [h1]), if_neg (by simp [h2]), if_neg h3]
            simp only [Except.isOk, Except.toBool]
            constructor
            · intro _
              refine ⟨trivial, h1, h2, ?_⟩
              by_cases hfe : fail_on_extra = true
              · left
                by_contra hex
                exact h3 ⟨hfe, hex⟩
              · right
                exact Bool.not_eq_true fail_on_extra ▸ hfe
            · intro _
              trivial
        · rw [if_neg (by simp [h1]), if_pos h2]
          simp [h2, Except.isOk, Except.toBool]
      · rw [if_pos h1]
        simp [h1, Except.isOk, Except.toBool]
  · intro hs
    subst hs
    rw [hval]
    rfl
  · intro hs h1
    subst hs
    rw [hval]
    simp only [Bool.not_true, Bool.false_eq_true, if_false]
    rw [if_pos h1]
  · intro hs h1 h2
    subst hs
    rw [hval]
    simp only [Bool.not_true, Bool.false_eq_true, if_false]
    rw [if_neg (by simp [h1]), if_pos h2]
  · intro hs h1 h2 hfe hex
    subst hs
    rw [hval]
    simp only [Bool.not_true, Bool.false_eq_true, if_false]
    rw [if_neg (by simp [h1]), if_neg (by simp [h2]), if_pos ⟨hfe, hex⟩]
  · intro hs h1 h2 hfe
    subst hs
    rw [hval]
    simp only [Bool.not_true, Bool.false_eq_true, if_false]
    rw [if_neg (by simp [h1]), if_neg (by simp [h2]),
      if_neg (by rintro ⟨hfa, _⟩; rw [hfe] at hfa; exact Bool.false_ne_true hfa)]

/-- The lowercase hex SHA-256 digest of the empty byte sequence. -/
def emptyDigestHex : String :=
  "e3b0c44298fc1c149afbf4c8996fb92427ae41e4649b934ca495991b7852b855"

/-- A well-formed signed-manifest document declaring one empty file. -/
def exampleManifestDoc : List (String × PyVal) :=
  [("version", PyVal.pstr "1.0"),
   ("files", PyVal.pdict [("a.bin", PyVal.pstr emptyDigestHex)]),
   ("signature", PyVal.pstr "")]

/-- The matching archive: one empty file at the declared path. -/
def exampleZip : List ZipEntry :=
  [⟨"a.bin", false, []⟩]

set_option maxRecDepth 40000 in
/-- Witness for C2 at a concrete manifest and archive: everything matches and
validation succeeds with no warnings. -/
theorem claim_C2_witness :
    validate_payload exampleManifestDoc exampleZip true false = .ok [] := by
  have h := (claim_C2 exampleManifestDoc exampleZip true false "1.0"
      [("a.bin", emptyDigestHex)] [] [("a.bin", zipEntryDigest [])]
      [("a.bin", lowerStr emptyDigestHex)] rfl rfl rfl).2.2.2.2.2
      rfl (by decide) (by decide) rfl
  rw [h]
  rw [show extraList [("a.bin", lowerStr emptyDigestHex)] [("a.bin", zipEntryDigest [])] = []
    from by decide]

/-- C9: duplicate detection is asymmetric between archive and manifest.  If
two distinct manifest keys normalize to the same path, `validate_payload`
raises no duplicate-entry error: the entry processed later silently
overwrites the earlier one in the normalized manifest map, and validation can
succeed (here: with an archive matching only the later digest, while the
earlier digest disagrees and is never checked). -/
theorem claim_C9 (ver k₁ k₂ v₁ v₂ p sigStr : String) (sg c : List Nat)
    (fail_on_extra : Bool)
    (hver : pyStrip ver ≠ "")
    (hsig : b64decode sigStr = .ok sg)
    (hk : k₁ ≠ k₂)
    (hn1 : normalize_relative_path k₁ = .ok p)
    (hn2 : normalize_relative_path k₂ = .ok p)
    (hd : lowerStr (zipEntryDigest c) = lowerStr v₂)
    (hneq : lowerStr v₁ ≠ lowerStr v₂) :
    normalizeManifestFiles [(k₁, v₁), (k₂, v₂)] = .ok [(p, lowerStr v₂)] ∧
    validate_payload
      [("version", PyVal.pstr ver),
        ("files", PyVal.pdict [(k₁, PyVal.pstr v₁), (k₂, PyVal.pstr v₂)]),
        ("signature", PyVal.pstr sigStr)]
      [⟨p, false, c⟩] true fail_on_extra = .ok [] := by
  have hnm : normalizeManifestFiles [(k₁, v₁), (k₂, v₂)] = .ok [(p, lowerStr v₂)] := by
    unfold normalizeManifestFiles
    simp [normManifestGo, hn1, hn2, dinsert]
  have hload : load_manifest
      [("version", PyVal.pstr ver),
        ("files", PyVal.pdict [(k₁, PyVal.pstr v₁), (k₂, PyVal.pstr v₂)]),
        ("signature", PyVal.pstr sigStr)] = .ok (ver, [(k₁, v₁), (k₂, v₂)], sg) :=
    @load_manifest_ok _ _ [(k₁, v₁), (k₂, v₂)] _ _ rfl hver rfl rfl hsig
  have hhz : hash_zip_members [⟨p, false, c⟩] = .ok [(p, zipEntryDigest c)] := by
    simp [hash_zip_members, hashZipGo, normalize_fixed_output hn1]
  have hmiss : missingList [(p, lowerStr v₂)] [(p, zipEntryDigest c)] = [] := by
    simp [missingList, List.lookup]
  have hmm : mismatchList [(p, lowerStr v₂)] [(p, zipEntryDigest c)] = [] := by
    simp [mismatchList, List.lookup, hd]
  have hex : extraList [(p, lowerStr v₂)] [(p, zipEntryDigest c)] = [] := by
    simp [extraList, List.lookup, List.insertionSort]
  refine ⟨hnm, ?_⟩
  unfold validate_payload
  simp only [hload, hhz, hnm, hmiss, hmm, hex]
  simp

set_option maxRecDepth 40000 in
/-- Witness for C9 at concrete inputs: `"a//b"` and `"a/b"` are distinct
manifest keys normalizing to the same path; the first declares a wrong
digest, the archive matches the second, and validation succeeds — even in
strict mode. -/
theorem claim_C9_witness :
    validate_payload
      [("version", PyVal.pstr "1.0"),
        ("files", PyVal.pdict [("a//b", PyVal.pstr "ff"), ("a/b", PyVal.pstr emptyDigestHex)]),
        ("signature", PyVal.pstr "")]
      [⟨"a/b", false, []⟩] true true = .ok [] :=
  (claim_C9 "1.0" "a//b" "a/b" "ff" emptyDigestHex "a/b" "" [] [] true
    (by decide) rfl (by decide) rfl rfl (by decide) (by decide)).2

end PySecret
